import Mathlib

/-!
Verification development for the project-management application
(`projectapp`): data model and operations of the task dependency graph,
milestone recalculation and progress aggregation engine, shallowly
embedded from `models.py`, `forms.py`, `serializers.py`, `signals.py`.

Dates are modelled as natural numbers (only their order matters).
Fractional progress values are modelled as exact rationals.
-/

/-- Task status, from `Task.STATUS_CHOICES` in `models.py`. -/
inductive Status where
  | todo
  | in_progress
  | done
deriving DecidableEq, Repr

/-- The part of a task visible to the progress aggregator:
its status and its (optional) milestone id. From `models.py` `Task`. -/
structure PTask where
  status : Status
  milestone : Option Nat
deriving DecidableEq, Repr

/-- A project as seen by `Project._calculate_progress_value`:
its tasks and the ids of its milestones. -/
structure Proj where
  tasks : List PTask
  milestones : List Nat
deriving DecidableEq, Repr

/-- Rounding to two decimal places, as `round(x, 2)` in `models.py`
(on the exact rational value; ties round up). -/
def round2 (q : ℚ) : ℚ := (⌊q * 100 + 1 / 2⌋ : ℚ) / 100

/-- `Milestone.is_complete` from `models.py`: true iff no linked task has a
status other than `done` (vacuously true with zero linked tasks). -/
def is_complete (p : Proj) (m : Nat) : Bool :=
  (p.tasks.filter (fun t => t.milestone = some m)).all (fun t => t.status = Status.done)

/-- `Project._calculate_progress_value` from `models.py`, line for line:
zero tasks give 0.0; with milestones, all-done short-circuits to 100.0,
otherwise the 90/10 weighted formula (100/0 when no stray tasks) is
clamped at 100 and rounded; without milestones, done/total rounded. -/
def calculate_progress_value (p : Proj) : ℚ :=
  let total_tasks := p.tasks.length
  if total_tasks = 0 then 0
  else
    if p.milestones ≠ [] then
      if p.tasks.all (fun t => t.status = Status.done) then 100
      else
        let completed_milestones := (p.milestones.filter (fun m => is_complete p m)).length
        let milestone_completion_frac : ℚ := (completed_milestones : ℚ) / (p.milestones.length : ℚ)
        let total_stray_tasks := (p.tasks.filter (fun t => t.milestone = none)).length
        let done_stray_tasks :=
          (p.tasks.filter (fun t => t.milestone = none ∧ t.status = Status.done)).length
        let progress : ℚ :=
          if total_stray_tasks = 0 then milestone_completion_frac * 100
          else milestone_completion_frac * 90 + ((done_stray_tasks : ℚ) / (total_stray_tasks : ℚ)) * 10
        round2 (min progress 100)
    else
      let done := (p.tasks.filter (fun t => t.status = Status.done)).length
      round2 ((done : ℚ) / (total_tasks : ℚ) * 100)

/-- The progress contract exactly as the specification words it:
0.0 for zero tasks; `round(done/total*100, 2)` with tasks but zero
milestones; with at least one milestone, 100.0 when every task is done,
otherwise `milestoneFrac*100` with no stray tasks or
`milestoneFrac*90 + strayFrac*10`, clamped to 100 and rounded. -/
def computeProgressSpec (p : Proj) : ℚ :=
  if p.tasks.length = 0 then 0
  else if p.milestones.length = 0 then
    round2 (((p.tasks.filter (fun t => t.status = Status.done)).length : ℚ) / (p.tasks.length : ℚ) * 100)
  else if p.tasks.all (fun t => t.status = Status.done) then 100
  else
    let milestoneFrac : ℚ :=
      ((p.milestones.filter (fun m => is_complete p m)).length : ℚ) / (p.milestones.length : ℚ)
    let strayTotal := (p.tasks.filter (fun t => t.milestone = none)).length
    let strayDone := (p.tasks.filter (fun t => t.milestone = none ∧ t.status = Status.done)).length
    if strayTotal = 0 then round2 (min (milestoneFrac * 100) 100)
    else round2 (min (milestoneFrac * 90 + ((strayDone : ℚ) / (strayTotal : ℚ)) * 10) 100)

/-- Example project of the spec: 3 tasks, 1 done, no milestones. -/
def exProgress1 : Proj :=
  { tasks := [⟨Status.done, none⟩, ⟨Status.todo, none⟩, ⟨Status.todo, none⟩], milestones := [] }

/-- Example project of the spec: 1 milestone (1 done + 1 todo task)
plus 1 stray todo task. -/
def exProgress2 : Proj :=
  { tasks := [⟨Status.done, some 1⟩, ⟨Status.todo, some 1⟩, ⟨Status.todo, none⟩],
    milestones := [1] }

/-- Example project of the spec: 1 fully-done 2-task milestone plus
2 stray tasks (1 done, 1 todo). -/
def exProgress3 : Proj :=
  { tasks := [⟨Status.done, some 1⟩, ⟨Status.done, some 1⟩, ⟨Status.done, none⟩,
              ⟨Status.todo, none⟩],
    milestones := [1] }

/-- Evaluation rule for two-decimal rounding, used on concrete values. -/
lemma round2_eq (q : ℚ) (n : ℤ) (h1 : (n : ℚ) ≤ q * 100 + 1 / 2) (h2 : q * 100 + 1 / 2 < n + 1) :
    round2 q = (n : ℚ) / 100 := by
  unfold round2
  rw [Int.floor_eq_iff.mpr ⟨h1, h2⟩]

/-- C1: `computeProgress` follows the spec's tiered formula on every
project (zero tasks, zero milestones, all-done short-circuit, 100/0 and
90/10 weightings, clamp, rounding), and the spec's worked examples hold:
33.33, 0.0 and 95.0. -/
theorem c1_computeProgress_spec :
    (∀ p : Proj, calculate_progress_value p = computeProgressSpec p) ∧
    calculate_progress_value exProgress1 = 3333 / 100 ∧
    calculate_progress_value exProgress2 = 0 ∧
    calculate_progress_value exProgress3 = 95 := by
  refine ⟨fun p => ?_, ?_, ?_, ?_⟩
  · unfold calculate_progress_value computeProgressSpec
    by_cases h0 : p.tasks.length = 0
    · simp [h0]
    · by_cases hm : p.milestones = []
      · simp [h0, hm]
      · have hml : ¬ p.milestones.length = 0 := by simpa [List.length_eq_zero] using hm
        by_cases hd : p.tasks.all (fun t => t.status = Status.done) = true
        · simp [h0, hm, hml, hd]
        · by_cases hs : (p.tasks.filter (fun t => t.milestone = none)).length = 0
          · simp [h0, hm, hml, hd, hs]
          · simp [h0, hm, hml, hd, hs]
  · simp +decide [calculate_progress_value, exProgress1]
    rw [round2_eq _ 3333 (by norm_num) (by norm_num)]
    norm_num
  · simp +decide [calculate_progress_value, exProgress2]
    rw [round2_eq _ 0 (by norm_num [min_def]) (by norm_num [min_def])]
    norm_num
  · simp +decide [calculate_progress_value, exProgress3]
    rw [round2_eq _ 9500 (by norm_num [min_def]) (by norm_num [min_def])]
    norm_num


/- Prerequisite edge table: a pair (t, p) records that task p is a
prerequisite of task t (row of the m2m through table). -/
abbrev Edges := List (Nat × Nat)

def prereq_ids (es : Edges) (n : Nat) : List Nat :=
  (es.filter (fun e => e.fst = n)).map Prod.snd

mutual
def hasCycleNode (es : Edges) (target : Nat) (fuel : Nat) (parent : Nat)
    (visited : Finset Nat) : Bool × Finset Nat :=
  match fuel with
  | 0 => (false, visited)
  | fuel' + 1 =>
    if parent = target then (true, visited)
    else if parent ∈ visited then (false, visited)
    else hasCycleList es target fuel' (prereq_ids es parent) (insert parent visited)
termination_by (fuel, 0)

def hasCycleList (es : Edges) (target : Nat) (fuel : Nat) (nodes : List Nat)
    (visited : Finset Nat) : Bool × Finset Nat :=
  match nodes with
  | [] => (false, visited)
  | g :: gs =>
    let r := hasCycleNode es target fuel g visited
    if r.fst then r else hasCycleList es target fuel gs r.snd
termination_by (fuel, nodes.length + 1)
end

def fuelBound (es : Edges) (parent : Nat) : Nat :=
  ((parent :: es.map Prod.snd).toFinset).card + 1

def has_cycle (es : Edges) (parent target : Nat) : Bool :=
  (hasCycleNode es target (fuelBound es parent) parent ∅).fst

def PrereqStep (es : Edges) (a b : Nat) : Prop := b ∈ prereq_ids es a

def Reaches (es : Edges) (a b : Nat) : Prop := Relation.ReflTransGen (PrereqStep es) a b


def NewClosed (es : Edges) (target : Nat) (r vis : Finset Nat) : Prop :=
  ∀ x ∈ r, x ∉ vis → x ≠ target ∧ ∀ y ∈ prereq_ids es x, y ∈ r

lemma newClosed_trans {es : Edges} {target : Nat} {r1 r2 vis : Finset Nat} (h12 : r1 ⊆ r2)
    (h1 : NewClosed es target r1 vis) (h2 : NewClosed es target r2 r1) :
    NewClosed es target r2 vis := by
  intro x hx hxv
  by_cases hx1 : x ∈ r1
  · obtain ⟨ht, hc⟩ := h1 x hx1 hxv
    exact ⟨ht, fun y hy => h12 (hc y hy)⟩
  · exact h2 x hx hx1

lemma hasCycleList_mono_of_node (es : Edges) (target fuel : Nat)
    (hnode : ∀ parent visited, visited ⊆ (hasCycleNode es target fuel parent visited).snd) :
    ∀ nodes visited, visited ⊆ (hasCycleList es target fuel nodes visited).snd := by
  intro nodes
  induction nodes with
  | nil => intro visited; simp [hasCycleList]
  | cons g gs ih =>
    intro visited
    simp only [hasCycleList]
    by_cases hf : (hasCycleNode es target fuel g visited).fst = true
    · rw [if_pos hf]
      exact hnode g visited
    · rw [if_neg hf]
      exact (hnode g visited).trans (ih _)

lemma hasCycleNode_mono (es : Edges) (target : Nat) :
    ∀ fuel parent visited, visited ⊆ (hasCycleNode es target fuel parent visited).snd := by
  intro fuel
  induction fuel with
  | zero => intro parent visited; simp [hasCycleNode]
  | succ f ih =>
    intro parent visited
    simp only [hasCycleNode]
    by_cases h1 : parent = target
    · rw [if_pos h1]
    · rw [if_neg h1]
      by_cases h2 : parent ∈ visited
      · rw [if_pos h2]
      · rw [if_neg h2]
        exact (Finset.subset_insert _ _).trans (hasCycleList_mono_of_node es target f ih _ _)

lemma hasCycleList_sound_of_node (es : Edges) (target fuel : Nat)
    (hnode : ∀ parent visited, (hasCycleNode es target fuel parent visited).fst = true →
      Reaches es parent target) :
    ∀ nodes visited, (hasCycleList es target fuel nodes visited).fst = true →
      ∃ g ∈ nodes, Reaches es g target := by
  intro nodes
  induction nodes with
  | nil => intro visited h; simp [hasCycleList] at h
  | cons g gs ih =>
    intro visited h
    simp only [hasCycleList] at h
    by_cases hf : (hasCycleNode es target fuel g visited).fst = true
    · exact ⟨g, List.mem_cons_self g gs, hnode g visited hf⟩
    · rw [if_neg hf] at h
      obtain ⟨g', hg', hr⟩ := ih _ h
      exact ⟨g', List.mem_cons_of_mem g hg', hr⟩

lemma hasCycleNode_sound (es : Edges) (target : Nat) :
    ∀ fuel parent visited, (hasCycleNode es target fuel parent visited).fst = true →
      Reaches es parent target := by
  intro fuel
  induction fuel with
  | zero => intro parent visited h; simp [hasCycleNode] at h
  | succ f ih =>
    intro parent visited h
    simp only [hasCycleNode] at h
    by_cases h1 : parent = target
    · exact h1 ▸ Relation.ReflTransGen.refl
    · rw [if_neg h1] at h
      by_cases h2 : parent ∈ visited
      · rw [if_pos h2] at h; simp at h
      · rw [if_neg h2] at h
        obtain ⟨g, hg, hr⟩ := hasCycleList_sound_of_node es target f ih _ _ h
        exact Relation.ReflTransGen.head hg hr

lemma hasCycleList_complete_of_node (es : Edges) (target : Nat) (U : Finset Nat)
    (fuel : Nat)
    (hnode : ∀ parent visited, parent ∈ U → (U \ visited).card < fuel →
      (hasCycleNode es target fuel parent visited).fst = false →
      visited ⊆ (hasCycleNode es target fuel parent visited).snd ∧
      parent ∈ (hasCycleNode es target fuel parent visited).snd ∧
      NewClosed es target (hasCycleNode es target fuel parent visited).snd visited) :
    ∀ nodes visited, (∀ g ∈ nodes, g ∈ U) → (U \ visited).card < fuel →
      (hasCycleList es target fuel nodes visited).fst = false →
      visited ⊆ (hasCycleList es target fuel nodes visited).snd ∧
      (∀ g ∈ nodes, g ∈ (hasCycleList es target fuel nodes visited).snd) ∧
      NewClosed es target (hasCycleList es target fuel nodes visited).snd visited := by
  intro nodes
  induction nodes with
  | nil =>
    intro visited _ _ _
    simp only [hasCycleList]
    exact ⟨Finset.Subset.refl _, by simp, fun x hx hxv => absurd hx hxv⟩
  | cons g gs ih =>
    intro visited hmem hfuel hres
    have hg : g ∈ U := hmem g (List.mem_cons_self g gs)
    simp only [hasCycleList] at hres ⊢
    by_cases hf : (hasCycleNode es target fuel g visited).fst = true
    · rw [if_pos hf] at hres
      rw [hres] at hf
      exact absurd hf (by simp)
    · have hf' : (hasCycleNode es target fuel g visited).fst = false := by
        simpa using hf
      rw [if_neg hf] at hres ⊢
      obtain ⟨hsub1, hgin, hnew1⟩ := hnode g visited hg hfuel hf'
      have hfuel2 : (U \ (hasCycleNode es target fuel g visited).snd).card < fuel :=
        lt_of_le_of_lt
          (Finset.card_le_card (Finset.sdiff_subset_sdiff (Finset.Subset.refl U) hsub1)) hfuel
      obtain ⟨hsub2, hmem2, hnew2⟩ :=
        ih _ (fun g' hg' => hmem g' (List.mem_cons_of_mem g hg')) hfuel2 hres
      refine ⟨hsub1.trans hsub2, ?_, newClosed_trans hsub2 hnew1 hnew2⟩
      intro g' hg'
      rcases List.mem_cons.mp hg' with rfl | hg'
      · exact hsub2 hgin
      · exact hmem2 g' hg'

lemma hasCycleNode_complete (es : Edges) (target : Nat) (U : Finset Nat)
    (hU : ∀ x y, y ∈ prereq_ids es x → y ∈ U) :
    ∀ fuel parent visited, parent ∈ U → (U \ visited).card < fuel →
      (hasCycleNode es target fuel parent visited).fst = false →
      visited ⊆ (hasCycleNode es target fuel parent visited).snd ∧
      parent ∈ (hasCycleNode es target fuel parent visited).snd ∧
      NewClosed es target (hasCycleNode es target fuel parent visited).snd visited := by
  intro fuel
  induction fuel with
  | zero => intro parent visited _ hlt _; omega
  | succ f ih =>
    intro parent visited hpu hlt hres
    simp only [hasCycleNode] at hres ⊢
    by_cases h1 : parent = target
    · rw [if_pos h1] at hres; simp at hres
    · rw [if_neg h1] at hres ⊢
      by_cases h2 : parent ∈ visited
      · rw [if_pos h2] at hres ⊢
        exact ⟨Finset.Subset.refl _, h2, fun x hx hxv => absurd hx hxv⟩
      · rw [if_neg h2] at hres ⊢
        have hpv : parent ∈ U \ visited := Finset.mem_sdiff.mpr ⟨hpu, h2⟩
        have hpos : 0 < (U \ visited).card := Finset.card_pos.mpr ⟨parent, hpv⟩
        have hfuel' : (U \ insert parent visited).card < f := by
          rw [Finset.sdiff_insert, Finset.card_erase_of_mem hpv]
          omega
        obtain ⟨hsub, hall, hnew⟩ :=
          hasCycleList_complete_of_node es target U f (fun p v => ih p v) _ _
            (fun g hgmem => hU parent g hgmem) hfuel' hres
        refine ⟨(Finset.subset_insert _ _).trans hsub, hsub (Finset.mem_insert_self _ _), ?_⟩
        intro x hx hxv
        by_cases hxp : x = parent
        · subst hxp
          exact ⟨h1, fun y hy => hall y hy⟩
        · exact hnew x hx (by simp [Finset.mem_insert, hxp, hxv])

lemma reaches_mem_closed (es : Edges) (target : Nat) (r : Finset Nat)
    (hclosed : ∀ x ∈ r, ∀ y ∈ prereq_ids es x, y ∈ r) :
    ∀ a, Reaches es a target → a ∈ r → target ∈ r := by
  intro a h
  induction h using Relation.ReflTransGen.head_induction_on with
  | refl => exact fun h => h
  | head hstep _ ih => exact fun ha => ih (hclosed _ ha _ hstep)

lemma has_cycle_correct (es : Edges) (parent target : Nat) :
    has_cycle es parent target = true ↔ Reaches es parent target := by
  constructor
  · exact fun h => hasCycleNode_sound es target _ parent ∅ h
  · intro hreach
    by_contra hfalse
    have hres : (hasCycleNode es target (fuelBound es parent) parent ∅).fst = false := by
      simpa [has_cycle] using hfalse
    have hU : ∀ x y, y ∈ prereq_ids es x → y ∈ (parent :: es.map Prod.snd).toFinset := by
      intro x y hy
      simp only [List.toFinset_cons, Finset.mem_insert, List.mem_toFinset]
      right
      obtain ⟨e, he, rfl⟩ := List.mem_map.mp hy
      exact List.mem_map.mpr ⟨e, List.mem_of_mem_filter he, rfl⟩
    have hpu : parent ∈ (parent :: es.map Prod.snd).toFinset := by simp
    have hfuel : ((parent :: es.map Prod.snd).toFinset \ ∅).card < fuelBound es parent := by
      simp [fuelBound]
    obtain ⟨_, hpin, hnew⟩ :=
      hasCycleNode_complete es target _ hU (fuelBound es parent) parent ∅ hpu hfuel hres
    have htin :=
      reaches_mem_closed es target _
        (fun x hx => (hnew x hx (Finset.not_mem_empty x)).2) parent hreach hpin
    exact (hnew target htin (Finset.not_mem_empty target)).1 rfl

/-- C2: `Task.has_cycle` returns true iff the target task id is reachable
from the candidate prerequisite by following zero or more prerequisite
edges; when the candidate equals the target it returns true (first
comparison), and it returns false exactly when traversal exhausts all
reachable nodes without finding the target. -/
theorem c2_has_cycle_iff_reachable (es : Edges) (candidate target : Nat) :
    (has_cycle es candidate target = true ↔ Reaches es candidate target) ∧
    (candidate = target → has_cycle es candidate target = true) := by
  refine ⟨has_cycle_correct es candidate target, fun h => ?_⟩
  exact (has_cycle_correct es candidate target).mpr (h ▸ Relation.ReflTransGen.refl)

/-- Witness for C2 at a concrete input: a self-referencing candidate is
reported as a cycle. -/
theorem c2_has_cycle_iff_reachable_witness : has_cycle [(2, 1)] 5 5 = true :=
  (c2_has_cycle_iff_reachable [(2, 1)] 5 5).2 rfl

/- Persistent-store model for tasks and milestones. -/

structure TaskRec where
  id : Nat
  due : Nat
  milestone : Option Nat
deriving DecidableEq, Repr

structure MsRec where
  id : Nat
  name : String
  due : Nat
deriving DecidableEq, Repr

structure Db where
  tasks : List TaskRec
  milestones : List MsRec
deriving DecidableEq, Repr

def maxDue : List Nat → Option Nat
  | [] => none
  | d :: ds =>
    match maxDue ds with
    | none => some d
    | some m => some (max d m)

def msTasks (s : Db) (m : Nat) : List TaskRec :=
  s.tasks.filter (fun t => t.milestone = some m)

/- max(task.due_date) over the milestone's currently linked tasks -/
def latestOf (s : Db) (m : Nat) : Option Nat :=
  maxDue ((msTasks s m).map TaskRec.due)

def updMs (m d : Nat) (r : MsRec) : MsRec :=
  if r.id = m ∧ r.due ≠ d then { r with due := d } else r

def recalculate_and_save_date (m : Nat) (s : Db) : Db :=
  match latestOf s m with
  | none => s
  | some latest => { s with milestones := s.milestones.map (updMs m latest) }

def lookupMs (s : Db) (m : Nat) : Option MsRec :=
  s.milestones.find? (fun r => r.id = m)

def lookupTask (s : Db) (tid : Nat) : Option TaskRec :=
  s.tasks.find? (fun t => t.id = tid)

/- field update applied by super().save() on an existing row -/
def updTask (tid : Nat) (d : Nat) (ms : Option Nat) (t : TaskRec) : TaskRec :=
  if t.id = tid then { t with due := d, milestone := ms } else t

def task_save (tid : Nat) (newDue : Nat) (newMs : Option Nat) (s : Db) : Db :=
  match lookupTask s tid with
  | none => s
  | some old =>
    let milestone_changed := newMs ≠ old.milestone
    let date_changed := newDue ≠ old.due
    let s1 : Db := { s with tasks := s.tasks.map (updTask tid newDue newMs) }
    let s2 :=
      match newMs with
      | some nm => if milestone_changed then recalculate_and_save_date nm s1 else s1
      | none => s1
    let s3 :=
      match old.milestone with
      | some om => if milestone_changed then recalculate_and_save_date om s2 else s2
      | none => s2
    let s4 :=
      match newMs with
      | some nm => if milestone_changed ∨ date_changed then recalculate_and_save_date nm s3 else s3
      | none => s3
    match old.milestone with
    | some om => if milestone_changed then recalculate_and_save_date om s4 else s4
    | none => s4

def task_delete (tid : Nat) (s : Db) : Db :=
  match lookupTask s tid with
  | none => s
  | some old =>
    let s1 : Db := { s with tasks := s.tasks.filter (fun t => ¬ t.id = tid) }
    match old.milestone with
    | some m => recalculate_and_save_date m s1
    | none => s1

/- helper lemmas -/

lemma updMs_id (m d : Nat) (r : MsRec) : (updMs m d r).id = r.id := by
  unfold updMs
  split <;> rfl

lemma updMs_eq (m d : Nat) (r : MsRec) (h : r.id = m) : updMs m d r = { r with due := d } := by
  unfold updMs
  split
  · rfl
  · rename_i hc
    have : r.due = d := by
      by_contra hne
      exact hc ⟨h, hne⟩
    cases r
    simp_all

lemma updMs_ne (m d : Nat) (r : MsRec) (h : ¬ r.id = m) : updMs m d r = r := by
  unfold updMs
  rw [if_neg (fun hc => h hc.1)]

lemma recalc_tasks (m : Nat) (s : Db) : (recalculate_and_save_date m s).tasks = s.tasks := by
  unfold recalculate_and_save_date
  rcases h : latestOf s m with _ | L <;> simp

lemma find?_map_updMs (l : List MsRec) (m d k : Nat) :
    (l.map (updMs m d)).find? (fun r => r.id = k) =
      (l.find? (fun r => r.id = k)).map (updMs m d) := by
  induction l with
  | nil => rfl
  | cons r rs ih =>
    by_cases h : r.id = k
    · simp only [List.map_cons]
      rw [List.find?_cons_of_pos _ (by simp [updMs_id, h]),
        List.find?_cons_of_pos _ (by simp [h])]
      simp
    · simp only [List.map_cons]
      rw [List.find?_cons_of_neg _ (by simp [updMs_id, h]),
        List.find?_cons_of_neg _ (by simp [h])]
      exact ih

lemma lookupMs_recalc_ne (m k : Nat) (s : Db) (h : ¬ k = m) :
    lookupMs (recalculate_and_save_date m s) k = lookupMs s k := by
  unfold recalculate_and_save_date lookupMs
  rcases hL : latestOf s m with _ | L
  · rfl
  · simp only
    rw [find?_map_updMs]
    rcases hf : s.milestones.find? (fun r => r.id = k) with _ | r
    · simp [hf]
    · have hid : r.id = k := by
        have := List.find?_some hf
        simpa using this
      simp [hf, updMs_ne m L r (by rw [hid]; exact h)]

lemma lookupMs_recalc_eq (m : Nat) (s : Db) (L : Nat) (hL : latestOf s m = some L)
    (r : MsRec) (hr : lookupMs s m = some r) :
    lookupMs (recalculate_and_save_date m s) m = some { r with due := L } := by
  unfold recalculate_and_save_date
  rw [hL]
  unfold lookupMs at hr ⊢
  simp only
  rw [find?_map_updMs, hr]
  have hid : r.id = m := by
    have := List.find?_some hr
    simpa using this
  simp [updMs_eq m L r hid]

lemma latestOf_tasks_eq (s s' : Db) (m : Nat) (h : s.tasks = s'.tasks) :
    latestOf s m = latestOf s' m := by
  unfold latestOf msTasks
  rw [h]

lemma updMs_idem (m L : Nat) (r : MsRec) : updMs m L (updMs m L r) = updMs m L r := by
  by_cases h : r.id = m
  · rw [updMs_eq m L r h]
    exact updMs_eq m L _ h
  · rw [updMs_ne m L r h, updMs_ne m L r h]

lemma recalc_of_latest_none (m : Nat) (s : Db) (h : latestOf s m = none) :
    recalculate_and_save_date m s = s := by
  unfold recalculate_and_save_date
  rw [h]

lemma recalc_milestones_of_latest (m : Nat) (s : Db) (L : Nat) (h : latestOf s m = some L) :
    (recalculate_and_save_date m s).milestones = s.milestones.map (updMs m L) := by
  unfold recalculate_and_save_date
  rw [h]

lemma db_eq (s s' : Db) (ht : s.tasks = s'.tasks) (hm : s.milestones = s'.milestones) :
    s = s' := by
  cases s
  cases s'
  simp_all

/-- C9: milestone due-date recalculation is idempotent: for every store
state and milestone, running `recalculate_and_save_date` twice in a row
with no intervening task change leaves the state identical to the state
after the first run. -/
theorem c9_recalculate_idempotent (s : Db) (m : Nat) :
    recalculate_and_save_date m (recalculate_and_save_date m s) =
      recalculate_and_save_date m s := by
  have htasks := recalc_tasks m s
  have hlat : latestOf (recalculate_and_save_date m s) m = latestOf s m :=
    latestOf_tasks_eq _ _ _ htasks
  rcases hL : latestOf s m with _ | L
  · exact recalc_of_latest_none m _ (hlat.trans hL)
  · refine db_eq _ _ (recalc_tasks _ _) ?_
    rw [recalc_milestones_of_latest m _ L (hlat.trans hL),
      recalc_milestones_of_latest m s L hL, List.map_map]
    exact List.map_congr_left (fun r _ => updMs_idem m L r)

/-- C4: `Milestone.recalculate_and_save_date` queries the maximum due
date among the milestone's currently linked tasks; with zero linked tasks
it changes nothing; otherwise it sets that milestone's stored due date to
the computed maximum, touching no other field (id and name survive in the
record) and no other milestone. -/
theorem c4_recalculate_frame (s : Db) (m : Nat) :
    (recalculate_and_save_date m s).tasks = s.tasks ∧
    (msTasks s m = [] → recalculate_and_save_date m s = s) ∧
    (∀ L, latestOf s m = some L → ∀ r, lookupMs s m = some r →
      lookupMs (recalculate_and_save_date m s) m = some { r with due := L }) ∧
    (∀ k, ¬ k = m → lookupMs (recalculate_and_save_date m s) k = lookupMs s k) := by
  refine ⟨recalc_tasks m s, ?_, ?_, ?_⟩
  · intro h
    apply recalc_of_latest_none
    unfold latestOf
    rw [h]
    rfl
  · exact fun L hL r hr => lookupMs_recalc_eq m s L hL r hr
  · exact fun k hk => lookupMs_recalc_ne m k s hk

def dbW1 : Db :=
  { tasks := [⟨1, 5, some 1⟩, ⟨2, 9, some 1⟩, ⟨3, 7, none⟩],
    milestones := [⟨1, "M1", 3⟩, ⟨2, "M2", 4⟩] }

theorem c4_recalculate_frame_witness :
    lookupMs (recalculate_and_save_date 1 dbW1) 1 = some ⟨1, "M1", 9⟩ ∧
    lookupMs (recalculate_and_save_date 1 dbW1) 2 = some ⟨2, "M2", 4⟩ :=
  ⟨(c4_recalculate_frame dbW1 1).2.2.1 9 rfl ⟨1, "M1", 3⟩ rfl,
   ((c4_recalculate_frame dbW1 1).2.2.2 2 (by decide)).trans rfl⟩

/-- C7: single-object deletion of a task that has a milestone runs the
milestone recalculator on that former milestone (the `post_delete`
signal); in particular, when remaining linked tasks exist, the
milestone's due date falls back to their maximum due date. -/
theorem c7_delete_recalculates (s : Db) (tid : Nat) (old : TaskRec) (m : Nat)
    (hfind : lookupTask s tid = some old) (hm : old.milestone = some m) :
    task_delete tid s =
      recalculate_and_save_date m { s with tasks := s.tasks.filter (fun t => ¬ t.id = tid) } ∧
    (∀ L r, latestOf { s with tasks := s.tasks.filter (fun t => ¬ t.id = tid) } m = some L →
      lookupMs s m = some r →
      lookupMs (task_delete tid s) m = some { r with due := L }) := by
  have hdef : task_delete tid s =
      recalculate_and_save_date m { s with tasks := s.tasks.filter (fun t => ¬ t.id = tid) } := by
    simp only [task_delete, hfind, hm]
  refine ⟨hdef, fun L r hL hr => ?_⟩
  rw [hdef]
  exact lookupMs_recalc_eq m _ L hL r hr

def dbW2 : Db :=
  { tasks := [⟨1, 9, some 1⟩, ⟨2, 5, some 1⟩],
    milestones := [⟨1, "M", 9⟩] }

theorem c7_delete_recalculates_witness :
    lookupMs (task_delete 1 dbW2) 1 = some ⟨1, "M", 5⟩ :=
  (c7_delete_recalculates dbW2 1 ⟨1, 9, some 1⟩ 1 rfl rfl).2 5 ⟨1, "M", 9⟩ rfl rfl

lemma updTask_id (tid d : Nat) (ms : Option Nat) (t : TaskRec) :
    (updTask tid d ms t).id = t.id := by
  unfold updTask
  split <;> rfl

lemma updTask_eq (tid d : Nat) (ms : Option Nat) (t : TaskRec) (h : t.id = tid) :
    updTask tid d ms t = { t with due := d, milestone := ms } := by
  unfold updTask
  rw [if_pos h]

lemma find?_map_updTask (l : List TaskRec) (tid d k : Nat) (ms : Option Nat) :
    (l.map (updTask tid d ms)).find? (fun t => t.id = k) =
      (l.find? (fun t => t.id = k)).map (updTask tid d ms) := by
  induction l with
  | nil => rfl
  | cons t ts ih =>
    by_cases h : t.id = k
    · simp only [List.map_cons]
      rw [List.find?_cons_of_pos _ (by simp [updTask_id, h]),
        List.find?_cons_of_pos _ (by simp [h])]
      simp
    · simp only [List.map_cons]
      rw [List.find?_cons_of_neg _ (by simp [updTask_id, h]),
        List.find?_cons_of_neg _ (by simp [h])]
      exact ih

/- the row state right after super().save(), before any recalculation -/
def savedTasks (tid d : Nat) (ms : Option Nat) (s : Db) : Db :=
  { s with tasks := s.tasks.map (updTask tid d ms) }

/-- C3: saving a task whose milestone assignment changes from milestone
m1 to milestone m2 (the `Task.save` override plus the `post_save`
signal) recalculates both m1's and m2's due dates to the maximum due
date of their then-linked tasks, and the moved task's own stored fields
are exactly the written values: the recalculation process never alters
the task's due date. -/
theorem c3_move_recalculates_both (s : Db) (tid d : Nat) (old : TaskRec) (m1 m2 : Nat)
    (hfind : lookupTask s tid = some old) (hm1 : old.milestone = some m1) (hne : m2 ≠ m1) :
    (task_save tid d (some m2) s).tasks = s.tasks.map (updTask tid d (some m2)) ∧
    lookupTask (task_save tid d (some m2) s) tid =
      some { old with due := d, milestone := some m2 } ∧
    (∀ L2 r2, latestOf (savedTasks tid d (some m2) s) m2 = some L2 →
      lookupMs s m2 = some r2 →
      lookupMs (task_save tid d (some m2) s) m2 = some { r2 with due := L2 }) ∧
    (∀ L1 r1, latestOf (savedTasks tid d (some m2) s) m1 = some L1 →
      lookupMs s m1 = some r1 →
      lookupMs (task_save tid d (some m2) s) m1 = some { r1 with due := L1 }) := by
  have hC : (some m2 : Option Nat) ≠ some m1 := by simpa using hne
  have hform : task_save tid d (some m2) s =
      recalculate_and_save_date m1 (recalculate_and_save_date m2 (recalculate_and_save_date m1
        (recalculate_and_save_date m2 (savedTasks tid d (some m2) s)))) := by
    simp only [task_save, hfind, hm1]
    rw [if_pos hC, if_pos (Or.inl hC), if_pos hC, if_pos hC]
    rfl
  have htasks : (task_save tid d (some m2) s).tasks = s.tasks.map (updTask tid d (some m2)) := by
    rw [hform]
    simp only [recalc_tasks]
    rfl
  refine ⟨htasks, ?_, ?_, ?_⟩
  · have hf' : s.tasks.find? (fun t => t.id = tid) = some old := hfind
    have hold_id : old.id = tid := by simpa using List.find?_some hf'
    unfold lookupTask
    rw [htasks, find?_map_updTask, hf']
    simp [updTask_eq tid d (some m2) old hold_id]
  · intro L2 r2 hL2 hr2
    have h1 : lookupMs (recalculate_and_save_date m2 (savedTasks tid d (some m2) s)) m2 =
        some { r2 with due := L2 } :=
      lookupMs_recalc_eq m2 _ L2 hL2 r2 hr2
    have h2 : lookupMs (recalculate_and_save_date m1 (recalculate_and_save_date m2
        (savedTasks tid d (some m2) s))) m2 = some { r2 with due := L2 } :=
      (lookupMs_recalc_ne m1 m2 _ hne).trans h1
    have hlatB : latestOf (recalculate_and_save_date m1 (recalculate_and_save_date m2
        (savedTasks tid d (some m2) s))) m2 = some L2 := by
      rw [latestOf_tasks_eq _ (savedTasks tid d (some m2) s) m2 (by simp only [recalc_tasks])]
      exact hL2
    have h3 := lookupMs_recalc_eq m2 _ L2 hlatB _ h2
    have h4 := (lookupMs_recalc_ne m1 m2 _ hne).trans h3
    rw [hform]
    exact h4
  · intro L1 r1 hL1 hr1
    have hne' : ¬ m1 = m2 := fun h => hne h.symm
    have h1 : lookupMs (recalculate_and_save_date m2 (savedTasks tid d (some m2) s)) m1 =
        some r1 := (lookupMs_recalc_ne m2 m1 _ hne').trans hr1
    have hlatA : latestOf (recalculate_and_save_date m2 (savedTasks tid d (some m2) s)) m1 =
        some L1 := by
      rw [latestOf_tasks_eq _ (savedTasks tid d (some m2) s) m1 (recalc_tasks _ _)]
      exact hL1
    have h2 : lookupMs (recalculate_and_save_date m1 (recalculate_and_save_date m2
        (savedTasks tid d (some m2) s))) m1 = some { r1 with due := L1 } :=
      lookupMs_recalc_eq m1 _ L1 hlatA r1 h1
    have h3 : lookupMs (recalculate_and_save_date m2 (recalculate_and_save_date m1
        (recalculate_and_save_date m2 (savedTasks tid d (some m2) s)))) m1 =
        some { r1 with due := L1 } := (lookupMs_recalc_ne m2 m1 _ hne').trans h2
    have hlatC : latestOf (recalculate_and_save_date m2 (recalculate_and_save_date m1
        (recalculate_and_save_date m2 (savedTasks tid d (some m2) s)))) m1 = some L1 := by
      rw [latestOf_tasks_eq _ (savedTasks tid d (some m2) s) m1 (by simp only [recalc_tasks])]
      exact hL1
    have h4 := lookupMs_recalc_eq m1 _ L1 hlatC _ h3
    rw [hform]
    exact h4

def dbW3 : Db :=
  { tasks := [⟨1, 7, some 1⟩, ⟨2, 4, some 1⟩, ⟨3, 6, some 2⟩],
    milestones := [⟨1, "A", 7⟩, ⟨2, "B", 6⟩] }

theorem c3_move_recalculates_both_witness :
    lookupTask (task_save 1 7 (some 2) dbW3) 1 = some ⟨1, 7, some 2⟩ ∧
    lookupMs (task_save 1 7 (some 2) dbW3) 2 = some ⟨2, "B", 7⟩ ∧
    lookupMs (task_save 1 7 (some 2) dbW3) 1 = some ⟨1, "A", 4⟩ :=
  ⟨(c3_move_recalculates_both dbW3 1 7 ⟨1, 7, some 1⟩ 1 2 rfl rfl (by decide)).2.1,
   (c3_move_recalculates_both dbW3 1 7 ⟨1, 7, some 1⟩ 1 2 rfl rfl (by decide)).2.2.1
     7 ⟨2, "B", 6⟩ rfl rfl,
   (c3_move_recalculates_both dbW3 1 7 ⟨1, 7, some 1⟩ 1 2 rfl rfl (by decide)).2.2.2
     4 ⟨1, "A", 7⟩ rfl rfl⟩

/-! Validation layer: `TaskForm.clean` (forms.py), `TaskSerializer.validate`
(serializers.py), the `m2m_changed` cycle-check signal (signals.py) and the
serializer due-date field validators. Inputs carry the effective values
after the serializer's instance fallbacks. -/

/-- A proposed prerequisite as the validators see it: its persisted id,
its optional due date, and its project id. -/
structure PrereqIn where
  pk : Nat
  due : Option Nat
  proj : Nat
deriving DecidableEq, Repr

/-- A task write payload: the instance's persisted id when updating
(none on creation), the proposed prerequisite set, the proposed start and
due dates, the project id of the selected milestone when one is selected,
and the task's project id. -/
structure TaskInput where
  instancePk : Option Nat
  prerequisites : List PrereqIn
  start_date : Option Nat
  due_date : Option Nat
  milestoneProj : Option Nat
  project : Nat
deriving DecidableEq, Repr

/-- Field-scoped validation errors raised by the validators. -/
inductive Err where
  | cycle (pk : Nat)
  | selfDep
  | fs (latest : Nat)
  | dueBeforeStart
  | msProject
  | crossProject
  | pastDue
deriving DecidableEq, Repr

/-- `max([p.due_date for p in prerequisites if p.due_date] or [start_date])`
from both validators. -/
def latestPrereqDue (prereqs : List PrereqIn) (sd : Nat) : Nat :=
  match maxDue (prereqs.filterMap PrereqIn.due) with
  | none => sd
  | some L => L

/-- The Finish-to-Start check: the latest prerequisite due date when
prerequisites and a start date are present and the start date precedes it. -/
def fsViolation (inp : TaskInput) : Option Nat :=
  match inp.start_date with
  | some sd =>
    if inp.prerequisites ≠ [] ∧ sd < latestPrereqDue inp.prerequisites sd then
      some (latestPrereqDue inp.prerequisites sd)
    else none
  | none => none

/-- `start_date > due_date` check shared by both validators. -/
def startAfterDue (inp : TaskInput) : Bool :=
  match inp.start_date, inp.due_date with
  | some sd, some dd => decide (dd < sd)
  | _, _ => false

/-- The cycle block of `TaskForm.clean`: one error per offending candidate,
run only when the instance has a persisted id and prerequisites were
proposed. -/
def cycleErrors (es : Edges) (inp : TaskInput) : List Err :=
  match inp.instancePk with
  | some t =>
    if inp.prerequisites ≠ [] then
      (inp.prerequisites.filter (fun p => has_cycle es p.pk t)).map (fun p => Err.cycle p.pk)
    else []
  | none => []

/-- The self-dependency block of `TaskForm.clean`. -/
def selfDepErrors (inp : TaskInput) : List Err :=
  match inp.instancePk with
  | some t => if t ∈ inp.prerequisites.map PrereqIn.pk then [Err.selfDep] else []
  | none => []

def fsErrors (inp : TaskInput) : List Err :=
  match fsViolation inp with
  | some L => [Err.fs L]
  | none => []

def dateErrors (inp : TaskInput) : List Err :=
  if startAfterDue inp then [Err.dueBeforeStart] else []

def milestoneErrors (inp : TaskInput) : List Err :=
  match inp.milestoneProj with
  | some mp => if mp ≠ inp.project then [Err.msProject] else []
  | none => []

/-- `TaskForm.clean` from forms.py: all five checks run via `add_error`,
collecting every applicable violation in source order. -/
def taskFormClean (es : Edges) (inp : TaskInput) : List Err :=
  cycleErrors es inp ++ selfDepErrors inp ++ fsErrors inp ++ dateErrors inp ++ milestoneErrors inp

/-- The date checks at the tail of `TaskSerializer.validate`. -/
def serializerDateChecks (inp : TaskInput) : Except Err Unit :=
  if startAfterDue inp then Except.error Err.dueBeforeStart
  else
    match fsViolation inp with
    | some L => Except.error (Err.fs L)
    | none => Except.ok ()

/-- `TaskSerializer.validate` from serializers.py: each check raises a
`ValidationError` immediately, so only the first violation in source order
is reported. -/
def serializerValidate (es : Edges) (inp : TaskInput) : Except Err Unit :=
  if inp.milestoneProj.any (fun mp => decide (mp ≠ inp.project)) then Except.error Err.msProject
  else if inp.prerequisites.any (fun p => p.proj ≠ inp.project) then Except.error Err.crossProject
  else if inp.instancePk.any (fun t => decide (t ∈ inp.prerequisites.map PrereqIn.pk)) then
    Except.error Err.selfDep
  else
    match inp.instancePk with
    | some t =>
      match inp.prerequisites.find? (fun p => has_cycle es p.pk t) with
      | some p => Except.error (Err.cycle p.pk)
      | none => serializerDateChecks inp
    | none => serializerDateChecks inp

/-- The `m2m_changed` pre_add handler `check_cycle` from signals.py,
iterating the ids being added: skipped entirely without a persisted
instance id; otherwise raises on self-reference or detected cycle. -/
def signalLoop (es : Edges) (t : Nat) : List Nat → Except Err Unit
  | [] => Except.ok ()
  | pk :: rest =>
    if pk = t then Except.error Err.selfDep
    else if has_cycle es pk t then Except.error (Err.cycle pk)
    else signalLoop es t rest

def check_cycle (es : Edges) (instancePk : Option Nat) (pkSet : List Nat) : Except Err Unit :=
  match instancePk with
  | none => Except.ok ()
  | some t => signalLoop es t pkSet

/-- `TaskSerializer.validate_due_date`: a provided due date earlier than
today is rejected. -/
def validate_due_date (today : Nat) (value : Option Nat) : Except Err (Option Nat) :=
  match value with
  | some v => if v < today then Except.error Err.pastDue else Except.ok (some v)
  | none => Except.ok none

/-- `MilestoneSerializer.validate_due_date`: identical rule. -/
def milestone_validate_due_date (today : Nat) (value : Option Nat) : Except Err (Option Nat) :=
  match value with
  | some v => if v < today then Except.error Err.pastDue else Except.ok (some v)
  | none => Except.ok none

/- shape of the errors each clean component can emit -/

lemma mem_cycleErrors {es : Edges} {inp : TaskInput} {e : Err} (h : e ∈ cycleErrors es inp) :
    ∃ p, e = Err.cycle p := by
  unfold cycleErrors at h
  rcases hpk : inp.instancePk with _ | t <;> simp only [hpk] at h
  · simp at h
  · by_cases hp : inp.prerequisites ≠ []
    · rw [if_pos hp] at h
      obtain ⟨p, _, hpe⟩ := List.mem_map.mp h
      exact ⟨p.pk, hpe.symm⟩
    · rw [if_neg hp] at h
      simp at h

lemma mem_selfDepErrors {inp : TaskInput} {e : Err} (h : e ∈ selfDepErrors inp) :
    e = Err.selfDep := by
  unfold selfDepErrors at h
  rcases hpk : inp.instancePk with _ | t <;> simp only [hpk] at h
  · simp at h
  · by_cases hp : t ∈ inp.prerequisites.map PrereqIn.pk
    · rw [if_pos hp] at h
      simpa using h
    · rw [if_neg hp] at h
      simp at h

lemma mem_fsErrors {inp : TaskInput} {e : Err} (h : e ∈ fsErrors inp) :
    ∃ L, e = Err.fs L := by
  unfold fsErrors at h
  rcases hv : fsViolation inp with _ | L <;> simp only [hv] at h
  · simp at h
  · exact ⟨L, by simpa using h⟩

lemma mem_dateErrors {inp : TaskInput} {e : Err} (h : e ∈ dateErrors inp) :
    e = Err.dueBeforeStart := by
  unfold dateErrors at h
  by_cases hs : startAfterDue inp = true
  · rw [if_pos hs] at h
    simpa using h
  · rw [if_neg hs] at h
    simp at h

lemma mem_milestoneErrors {inp : TaskInput} {e : Err} (h : e ∈ milestoneErrors inp) :
    e = Err.msProject := by
  unfold milestoneErrors at h
  rcases hm : inp.milestoneProj with _ | mp <;> simp only [hm] at h
  · simp at h
  · by_cases hp : mp ≠ inp.project
    · rw [if_pos hp] at h
      simpa using h
    · rw [if_neg hp] at h
      simp at h

lemma taskFormClean_cases {es : Edges} {inp : TaskInput} {e : Err}
    (he : e ∈ taskFormClean es inp) :
    e ∈ cycleErrors es inp ∨ e = Err.selfDep ∨ (∃ L, e = Err.fs L) ∨
      e = Err.dueBeforeStart ∨ e = Err.msProject := by
  simp only [taskFormClean, List.mem_append] at he
  rcases he with ((((h | h) | h) | h) | h)
  · exact Or.inl h
  · exact Or.inr (Or.inl (mem_selfDepErrors h))
  · exact Or.inr (Or.inr (Or.inl (mem_fsErrors h)))
  · exact Or.inr (Or.inr (Or.inr (Or.inl (mem_dateErrors h))))
  · exact Or.inr (Or.inr (Or.inr (Or.inr (mem_milestoneErrors h))))

/- reachability endpoints are edge targets (or the start itself) -/
lemma reaches_target_mem (es : Edges) (a b : Nat) (h : Reaches es a b) :
    b = a ∨ b ∈ es.map Prod.snd := by
  induction h with
  | refl => exact Or.inl rfl
  | tail _ hstep _ =>
    right
    obtain ⟨e, he, rfl⟩ := List.mem_map.mp hstep
    exact List.mem_map.mpr ⟨e, List.mem_of_mem_filter he, rfl⟩

lemma signalLoop_rejects (es : Edges) (a b : Nat) :
    ∀ ps, b ∈ ps → Reaches es b a → ∃ e, signalLoop es a ps = Except.error e := by
  intro ps
  induction ps with
  | nil => intro h; simp at h
  | cons pk rest ih =>
    intro hmem hreach
    by_cases h1 : pk = a
    · exact ⟨Err.selfDep, by simp [signalLoop, h1]⟩
    · by_cases h2 : has_cycle es pk a = true
      · exact ⟨Err.cycle pk, by simp [signalLoop, h1, h2]⟩
      · have hbr : b ∈ rest := by
          rcases List.mem_cons.mp hmem with rfl | h
          · exact absurd ((has_cycle_correct es b a).mpr hreach) h2
          · exact h
        obtain ⟨e, he⟩ := ih hbr hreach
        exact ⟨e, by simp [signalLoop, h1, h2, he]⟩

/-- The write path of the task form views: `form.is_valid()` gates
`form.save()`, so an invalid form applies no mutation at all. -/
def task_form_write (es : Edges) (inp : TaskInput) (tid d : Nat) (ms : Option Nat) (s : Db) : Db :=
  if taskFormClean es inp = [] then task_save tid d ms s else s

/-- `prerequisite_tasks.set` guarded by the pre_add `check_cycle` signal:
edges are inserted only when the check passes. -/
def add_prerequisites (es : Edges) (t : Nat) (pkSet : List Nat) : Except Err Edges :=
  match check_cycle es (some t) pkSet with
  | Except.error e => Except.error e
  | Except.ok _ => Except.ok (es ++ pkSet.map (fun pk => (t, pk)))

/- concrete multi-violation write: updating task 1, proposing prerequisite
task 2 whose own prerequisite chain reaches task 1, with a start date
after the due date -/
def exVal_es : Edges := [(2, 1)]

def exVal_inp : TaskInput :=
  { instancePk := some 1, prerequisites := [⟨2, some 5, 0⟩],
    start_date := some 10, due_date := some 3, milestoneProj := none, project := 0 }

lemma exVal_cycle : has_cycle exVal_es 2 1 = true := by
  simp +decide [exVal_es, has_cycle, fuelBound, hasCycleNode, hasCycleList, prereq_ids]

/-- C5 counterexample: on a write violating both the cycle rule and the
date-ordering rule, the form validator collects both errors, but the API
serializer path reports only the first (the cycle), so collection does
not hold on every task write path. -/
theorem c5_counterexample_serializer_fail_fast :
    taskFormClean exVal_es exVal_inp = [Err.cycle 2, Err.dueBeforeStart] ∧
    startAfterDue exVal_inp = true ∧
    serializerValidate exVal_es exVal_inp = Except.error (Err.cycle 2) := by
  refine ⟨?_, rfl, ?_⟩
  · simp +decide [taskFormClean, cycleErrors, selfDepErrors, fsErrors, dateErrors,
      milestoneErrors, fsViolation, startAfterDue, latestPrereqDue, maxDue,
      exVal_inp, exVal_cycle]
  · simp +decide [serializerValidate, serializerDateChecks, fsViolation, startAfterDue,
      latestPrereqDue, maxDue, exVal_inp, exVal_cycle]

/-- C5 (amended): the form validator `TaskForm.clean` collects every
applicable field-scoped violation together in one result (cycle per
offending candidate, self-dependency, Finish-to-Start, date ordering,
cross-project milestone); the serializer path is fail-fast instead. -/
theorem c5_form_collects_all_violations (es : Edges) (inp : TaskInput) :
    (∀ t p, inp.instancePk = some t → p ∈ inp.prerequisites → has_cycle es p.pk t = true →
      Err.cycle p.pk ∈ taskFormClean es inp) ∧
    (∀ t, inp.instancePk = some t → t ∈ inp.prerequisites.map PrereqIn.pk →
      Err.selfDep ∈ taskFormClean es inp) ∧
    (∀ L, fsViolation inp = some L → Err.fs L ∈ taskFormClean es inp) ∧
    (startAfterDue inp = true → Err.dueBeforeStart ∈ taskFormClean es inp) ∧
    (∀ mp, inp.milestoneProj = some mp → mp ≠ inp.project →
      Err.msProject ∈ taskFormClean es inp) := by
  refine ⟨?_, ?_, ?_, ?_, ?_⟩
  · intro t p ht hp hcyc
    unfold taskFormClean
    apply List.mem_append_left
    apply List.mem_append_left
    apply List.mem_append_left
    apply List.mem_append_left
    simp only [cycleErrors, ht]
    rw [if_pos (by intro hnil; rw [hnil] at hp; simp at hp)]
    exact List.mem_map.mpr ⟨p, List.mem_filter.mpr ⟨hp, by simp [hcyc]⟩, rfl⟩
  · intro t ht hmem
    unfold taskFormClean
    apply List.mem_append_left
    apply List.mem_append_left
    apply List.mem_append_left
    apply List.mem_append_right
    simp only [selfDepErrors, ht]
    rw [if_pos hmem]
    simp
  · intro L hL
    unfold taskFormClean
    apply List.mem_append_left
    apply List.mem_append_left
    apply List.mem_append_right
    simp [fsErrors, hL]
  · intro hs
    unfold taskFormClean
    apply List.mem_append_left
    apply List.mem_append_right
    simp [dateErrors, hs]
  · intro mp hmp hne
    unfold taskFormClean
    apply List.mem_append_right
    simp only [milestoneErrors, hmp]
    rw [if_pos hne]
    simp

/-- Witness for the amended C5 at a concrete input with two simultaneous
violations: both errors are present in the form validator's output. -/
theorem c5_form_collects_all_violations_witness :
    Err.cycle 2 ∈ taskFormClean exVal_es exVal_inp ∧
    Err.dueBeforeStart ∈ taskFormClean exVal_es exVal_inp :=
  ⟨(c5_form_collects_all_violations exVal_es exVal_inp).1 1 ⟨2, some 5, 0⟩ rfl
      (by decide) exVal_cycle,
   (c5_form_collects_all_violations exVal_es exVal_inp).2.2.2.1 rfl⟩

/-- C8: when the task has no persisted identity (a creation), the cycle
check is skipped on every validation path: the form cycle block emits
nothing, the m2m signal returns immediately, the serializer never raises
a cycle error; and even the post-save m2m add on a fresh id (one that no
edge targets) passes the signal check. -/
theorem c8_creation_skips_cycle_check (es : Edges) (inp : TaskInput) (pkSet : List Nat)
    (h : inp.instancePk = none) :
    cycleErrors es inp = [] ∧
    (∀ p, Err.cycle p ∉ taskFormClean es inp) ∧
    check_cycle es inp.instancePk pkSet = Except.ok () ∧
    (∀ p, serializerValidate es inp ≠ Except.error (Err.cycle p)) ∧
    (∀ t ps, t ∉ ps → t ∉ es.map Prod.snd → check_cycle es (some t) ps = Except.ok ()) := by
  refine ⟨by simp [cycleErrors, h], ?_, by rw [h]; rfl, ?_, ?_⟩
  · intro p hp
    rcases taskFormClean_cases hp with hc | hsd | ⟨L, hL⟩ | hd | hm
    · rw [show cycleErrors es inp = [] from by simp [cycleErrors, h]] at hc
      simp at hc
    · exact absurd hsd (by simp)
    · exact absurd hL (by simp)
    · exact absurd hd (by simp)
    · exact absurd hm (by simp)
  · intro p
    simp only [serializerValidate, h]
    split_ifs with h1 h2 h3
    · simp
    · simp
    · simp at h3
    · simp only [serializerDateChecks]
      split_ifs with h4
      · simp
      · rcases hv : fsViolation inp with _ | L <;> simp [hv]
  · intro t ps
    induction ps with
    | nil => intro _ _; rfl
    | cons pk rest ih =>
      intro hnp hne
      have hpk_ne : ¬ pk = t := fun hh => hnp (hh ▸ List.mem_cons_self pk rest)
      have hnc : ¬ has_cycle es pk t = true := by
        intro hc
        rcases reaches_target_mem es pk t ((has_cycle_correct es pk t).mp hc) with rfl | hmem
        · exact hpk_ne rfl
        · exact hne hmem
      have hrest := ih (fun hh => hnp (List.mem_cons_of_mem pk hh)) hne
      simp only [check_cycle] at hrest ⊢
      simp [signalLoop, hpk_ne, hnc, hrest]

def inpNew : TaskInput :=
  { instancePk := none, prerequisites := [⟨2, some 5, 0⟩],
    start_date := none, due_date := some 3, milestoneProj := none, project := 0 }

theorem c8_creation_skips_cycle_check_witness :
    cycleErrors exVal_es inpNew = [] ∧
    check_cycle exVal_es inpNew.instancePk [2] = Except.ok () ∧
    check_cycle exVal_es (some 99) [2] = Except.ok () :=
  ⟨(c8_creation_skips_cycle_check exVal_es inpNew [2] rfl).1,
   (c8_creation_skips_cycle_check exVal_es inpNew [2] rfl).2.2.1,
   (c8_creation_skips_cycle_check exVal_es inpNew [2] rfl).2.2.2.2 99 [2]
     (by decide) (by decide)⟩

/-- C6: a task write rejected by validation applies no mutation: the
form write path saves only when `clean` reported no error, so a rejected
write leaves the store untouched; and an attempt to add a prerequisite
edge from b when the target a is reachable from b (a already transitively
a prerequisite-ancestor, i.e. the new edge would close a cycle) is
rejected by the pre_add signal with an error, committing no edge set. -/
theorem c6_rejected_write_all_or_nothing :
    (∀ es inp tid d ms s, taskFormClean es inp ≠ [] →
      task_form_write es inp tid d ms s = s) ∧
    (∀ es a b pkSet, b ∈ pkSet → Reaches es b a →
      ∃ e, add_prerequisites es a pkSet = Except.error e) := by
  constructor
  · intro es inp tid d ms s hne
    simp [task_form_write, hne]
  · intro es a b pkSet hmem hreach
    obtain ⟨e, he⟩ := signalLoop_rejects es a b pkSet hmem hreach
    exact ⟨e, by simp [add_prerequisites, check_cycle, he]⟩

def inpDate : TaskInput :=
  { instancePk := none, prerequisites := [], start_date := some 5, due_date := some 3,
    milestoneProj := none, project := 0 }

theorem c6_rejected_write_all_or_nothing_witness :
    task_form_write [] inpDate 1 3 none dbW1 = dbW1 ∧
    ∃ e, add_prerequisites [(2, 1)] 1 [2] = Except.error e :=
  ⟨(c6_rejected_write_all_or_nothing).1 [] inpDate 1 3 none dbW1 (by decide),
   (c6_rejected_write_all_or_nothing).2 [(2, 1)] 1 2 [2] (by decide)
     (Relation.ReflTransGen.single (show (1 : Nat) ∈ prereq_ids [(2, 1)] 2 by decide))⟩

/-- C10: the API serializer layer rejects a provided task or milestone
due date strictly earlier than the current date and accepts anything
else, while the form validator has no such rule (no past-due error is
ever in its output). -/
theorem c10_serializer_rejects_past_due (today v : Nat) :
    (validate_due_date today (some v) = Except.error Err.pastDue ↔ v < today) ∧
    (milestone_validate_due_date today (some v) = Except.error Err.pastDue ↔ v < today) ∧
    validate_due_date today none = Except.ok none ∧
    milestone_validate_due_date today none = Except.ok none ∧
    (∀ es inp, Err.pastDue ∉ taskFormClean es inp) := by
  refine ⟨?_, ?_, rfl, rfl, ?_⟩
  · by_cases hlt : v < today <;> simp [validate_due_date, hlt]
  · by_cases hlt : v < today <;> simp [milestone_validate_due_date, hlt]
  · intro es inp hp
    rcases taskFormClean_cases hp with hc | hsd | ⟨L, hL⟩ | hd | hm
    · obtain ⟨p, hpp⟩ := mem_cycleErrors hc
      exact absurd hpp (by simp)
    · exact absurd hsd (by simp)
    · exact absurd hL (by simp)
    · exact absurd hd (by simp)
    · exact absurd hm (by simp)

theorem c10_serializer_rejects_past_due_witness :
    validate_due_date 10 (some 5) = Except.error Err.pastDue ∧
    milestone_validate_due_date 10 (some 5) = Except.error Err.pastDue :=
  ⟨(c10_serializer_rejects_past_due 10 5).1.mpr (by decide),
   (c10_serializer_rejects_past_due 10 5).2.1.mpr (by decide)⟩
